import Mathlib

/-!
Verification of the Markdown→WeChat HTML rendering core (`core/renderer.py`).

The element trees produced by BeautifulSoup are modelled by the mutual
inductive `Node`/`NodeList` below; each transformation of the renderer is
translated into a Lean function over these trees, following the Python
source line by line.  Machine strings are modelled by `String`/`List Char`;
Python `str.strip`/`str.isspace` are modelled on the character set that is
relevant to the pipeline (ASCII whitespace plus NBSP and NEL).
-/

/-- Models Python `str.isspace` / `re` `\s` on the characters handled by the
pipeline: ASCII whitespace, vertical tab, form feed, NEL (U+0085) and
NBSP (U+00A0). -/
def pyIsSpace (c : Char) : Bool :=
  c = ' ' || c = '\t' || c = '\n' || c = '\r' ||
  c = '\x0b' || c = '\x0c' || c = '\x85' || c = '\xA0'

/-- The non-breaking space character used by the renderer (`u" "`). -/
def nbspChar : Char := '\xA0'

/-- Models Python `str.strip()`: drop leading and trailing whitespace. -/
def stripL (l : List Char) : List Char :=
  ((l.dropWhile pyIsSpace).reverse.dropWhile pyIsSpace).reverse

mutual
/-- An HTML-ish element tree as produced by BeautifulSoup: either a text
node (`NavigableString`) or a tag with a name, an attribute list and
children. -/
inductive Node where
  | text (s : String) : Node
  | elem (tag : String) (attrs : List (String × String)) (children : NodeList) : Node
/-- The ordered children of a `Node.elem`. -/
inductive NodeList where
  | nil : NodeList
  | cons (n : Node) (ns : NodeList) : NodeList
end

/-- Convert a Lean list of nodes into a `NodeList` (notation helper). -/
def nl : List Node → NodeList
  | [] => .nil
  | n :: ns => .cons n (nl ns)

/-- Append two `NodeList`s. -/
def nlApp : NodeList → NodeList → NodeList
  | .nil, m => m
  | .cons n ns, m => .cons n (nlApp ns m)

/-- `tag[key] = value` on a BeautifulSoup attribute dict: replace the value
in place if the key is present, otherwise append the pair. -/
def setAttr (k v : String) : List (String × String) → List (String × String)
  | [] => [(k, v)]
  | (k2, v2) :: rest => if k2 == k then (k, v) :: rest else (k2, v2) :: setAttr k v rest

/-- `tag.get(key)` on an attribute dict. -/
def getAttr (k : String) : List (String × String) → Option String
  | [] => none
  | (k2, v2) :: rest => if k2 == k then some v2 else getAttr k rest

/-- The tag of a node (`""` for text nodes). -/
def tagOf : Node → String
  | .text _ => ""
  | .elem t _ _ => t

/-- The attribute list of a node. -/
def attrsOf : Node → List (String × String)
  | .text _ => []
  | .elem _ a _ => a

/-- The children of a node. -/
def childrenOf : Node → NodeList
  | .text _ => .nil
  | .elem _ _ c => c

mutual
/-- `node.get_text(strip=True)`: the concatenation of every descendant text
node with each string individually stripped. -/
def getTextN : Node → List Char
  | .text s => stripL s.toList
  | .elem _ _ c => getTextL c
/-- List version of `getTextN`. -/
def getTextL : NodeList → List Char
  | .nil => []
  | .cons n ns => getTextN n ++ getTextL ns
end

/-- The renderer's emptiness test input for an `<li>`'s children:
`get_text(strip=True).replace(u'\xa0', '').strip()`. -/
def normTextL (c : NodeList) : List Char :=
  stripL ((getTextL c).filter (fun ch => ch != nbspChar))

/-- `normTextL` applied to a whole node. -/
def normTextN (n : Node) : List Char :=
  stripL ((getTextN n).filter (fun ch => ch != nbspChar))

mutual
/-- Does the subtree rooted at this node (itself included) contain an
element with the given tag?  Models `node.find(tag)` truthiness when
applied to its children. -/
def hasTagN (t : String) : Node → Bool
  | .text _ => false
  | .elem t2 _ c => t2 == t || hasTagL t c
/-- Does any node of the list contain (or be) an element with this tag? -/
def hasTagL (t : String) : NodeList → Bool
  | .nil => false
  | .cons n ns => hasTagN t n || hasTagL t ns
end

/-- `len(li.find_all(recursive=False))`: the number of direct element
(non-text) children. -/
def countElems : NodeList → Nat
  | .nil => 0
  | .cons (.text _) ns => countElems ns
  | .cons (.elem _ _ _) ns => countElems ns + 1

/-- Is this node a `<li>` element? -/
def isLi : Node → Bool
  | .elem t _ _ => t == "li"
  | _ => false

/-- Is this node a `<ul>` or `<ol>` element? -/
def isListTag : Node → Bool
  | .elem t _ _ => t == "ul" || t == "ol"
  | _ => false

/-- Is this node a `<p>` element? -/
def isP : Node → Bool
  | .elem t _ _ => t == "p"
  | _ => false

mutual
/-- `li.p.unwrap()` helper: unwrap the first `<p>` descendant found in
pre-order inside this node, returning `none` when there is no `<p>`. -/
def uwN : Node → Option Node
  | .text _ => none
  | .elem t a c => (uwL c).map (.elem t a)
/-- Unwrap the first `<p>` found in pre-order in this forest: the `<p>` is
replaced in place by its own children. -/
def uwL : NodeList → Option NodeList
  | .nil => none
  | .cons n ns =>
    if isP n then some (nlApp (childrenOf n) ns)
    else match uwN n with
      | some n2 => some (.cons n2 ns)
      | none => (uwL ns).map (.cons n)
end

/-- The style the restructurer puts on every `<ul>`/`<ol>`. -/
def listStyleStr : String := "list-style-type: none; padding: 0; margin: 0;"

/-- The style put on a surviving `<li>` at nesting `level`
(`padding-left: level*2em`, `indent_size = 2`). -/
def liStyleStr (level : Nat) : String :=
  "display: block; margin-bottom: 0.5em; padding-left: " ++ Nat.repr (level * 2) ++ "em;"

/-- The marker text: `f"{n}. "` for ordered lists, `"• "` otherwise, with
the space replaced by a non-breaking space. -/
def markerText (ordered : Bool) (cnt : Nat) : String :=
  if ordered then Nat.repr cnt ++ "." ++ "\xA0" else "•" ++ "\xA0"

/-- The manually rendered bullet/number `<span>` prepended to each item. -/
def markerSpan (ordered : Bool) (cnt : Nat) : Node :=
  .elem "span" [("style", "margin-right: 0.6em;")]
    (.cons (.text (markerText ordered cnt)) .nil)

/-- An item is deleted when its normalized text is empty and it contains no
`<img>`: `if not text and not li.find('img'): li.decompose()`. -/
def liDead (c : NodeList) : Bool :=
  (normTextL c).isEmpty && !(hasTagL "img" c)

/-- The rebuilt surviving `<li>`: attributes with the level style set, and a
single `<section>` child holding the marker `<span>` followed by the item's
(already processed) children. -/
def newLi (ordered : Bool) (level cnt : Nat) (a : List (String × String))
    (c2 : NodeList) : Node :=
  .elem "li" (setAttr "style" (liStyleStr level) a)
    (.cons (.elem "section" [] (.cons (markerSpan ordered cnt) c2)) .nil)

mutual
/-- `style_list_items_recursively(list_tag, level)`: style the list itself
and process its direct `<li>` children with a counter starting at 1. -/
def procListN (level : Nat) : Node → Node
  | .text s => .text s
  | .elem t a c => .elem t (setAttr "style" listStyleStr a) (procItems (t == "ol") level 1 c)
/-- The per-item loop of `style_list_items_recursively`: recurse into
direct-child lists, unwrap a single wrapping `<p>`, delete empty items
(without incrementing the counter), and rebuild survivors via `newLi`. -/
def procItems (ordered : Bool) (level cnt : Nat) : NodeList → NodeList
  | .nil => .nil
  | .cons (.text s) ns => .cons (.text s) (procItems ordered level cnt ns)
  | .cons (.elem t a c) ns =>
    if t == "li" then
      let c1 := procNested level c
      let c2 := if hasTagL "p" c1 && (countElems c1 == 1) then (uwL c1).getD c1 else c1
      if liDead c2 then procItems ordered level cnt ns
      else .cons (newLi ordered level cnt a c2)
             (procItems ordered level (if ordered then cnt + 1 else cnt) ns)
    else .cons (.elem t a c) (procItems ordered level cnt ns)
/-- `for nested_list in li.find_all(['ul','ol'], recursive=False)`: process
each direct-child list of an item at `level + 1`. -/
def procNested (level : Nat) : NodeList → NodeList
  | .nil => .nil
  | .cons n ns =>
    .cons (if isListTag n then procListN (level + 1) n else n) (procNested level ns)
end

mutual
/-- `_process_lists`: every `<ul>`/`<ol>` whose nearest list ancestor is
none is restructured at level 0; nested lists are only reached through the
recursion of `procItems`. -/
def processListsN : Node → Node
  | .text s => .text s
  | .elem t a c =>
    if t == "ul" || t == "ol" then procListN 0 (.elem t a c)
    else .elem t a (processListsL c)
/-- List version of `processListsN`. -/
def processListsL : NodeList → NodeList
  | .nil => .nil
  | .cons n ns => .cons (processListsN n) (processListsL ns)
end

/-- The marker string of a restructured `<li>`: the text of the `<span>`
heading its single `<section>` child. -/
def markerOf : Node → Option String
  | .elem "li" _ (.cons (.elem "section" _
      (.cons (.elem "span" _ (.cons (.text m) .nil)) _)) .nil) => some m
  | _ => none

/-- The markers of the direct `<li>` children of a list, in sibling order. -/
def markersOf : NodeList → List (Option String)
  | .nil => []
  | .cons n ns => if isLi n then markerOf n :: markersOf ns else markersOf ns

/-- The number of direct `<li>` children. -/
def countLis : NodeList → Nat
  | .nil => 0
  | .cons n ns => (if isLi n then 1 else 0) + countLis ns

/-- The ordinal marker text of the `n`-th surviving ordered item:
`"{n}."` followed by the non-breaking space. -/
def numMark (n : Nat) : String := Nat.repr n ++ "." ++ "\xA0"

/-- The survival condition of the spec: nonempty normalized rendered text,
or an `<img>` descendant. -/
def liOK (n : Node) : Bool :=
  !(normTextN n).isEmpty || hasTagL "img" (childrenOf n)

/-- Do all direct `<li>` children of this forest satisfy `liOK`? -/
def allLisOK : NodeList → Bool
  | .nil => true
  | .cons n ns => (if isLi n then liOK n else true) && allLisOK ns

mutual
/-- Is there anywhere in this subtree an `<li>` element with empty
normalized text and no `<img>` descendant (a violation of the claimed
survival invariant)? -/
def anyBadLiN : Node → Bool
  | .text _ => false
  | .elem t _ c => (t == "li" && !liOK (.elem t [] c)) || anyBadLiL c
/-- List version of `anyBadLiN`. -/
def anyBadLiL : NodeList → Bool
  | .nil => false
  | .cons n ns => anyBadLiN n || anyBadLiL ns
end

/-- Is this node a `<script>` or `<style>` element (removed by the
sanitizing filter)? -/
def isSS : Node → Bool
  | .elem t _ _ => t = "script" || t = "style"
  | _ => false

/-- The attribute allow-list of `_filter_unsupported_elements`. -/
def allowedAttrs : List String :=
  ["style", "src", "href", "alt", "title", "width", "height",
   "data-src", "data-type", "data-w", "data-h", "class"]

/-- Tags whose attributes the filter leaves untouched:
`mp-common-profile` plus `html`/`body`/`head`. -/
def exemptTag (t : String) : Bool :=
  t == "mp-common-profile" || t == "html" || t == "body" || t == "head"

mutual
/-- First pass of the filter: `for s in soup(['script','style']): s.decompose()`. -/
def dropSS : Node → Node
  | .text s => .text s
  | .elem t a c => .elem t a (dropSSL c)
/-- List version of `dropSS`: script/style nodes are removed with their
whole subtree. -/
def dropSSL : NodeList → NodeList
  | .nil => .nil
  | .cons n ns => if isSS n then dropSSL ns else .cons (dropSS n) (dropSSL ns)
end

mutual
/-- Second pass of the filter: on every non-exempt element delete every
attribute whose key is not in the allow-list. -/
def filtAttrs : Node → Node
  | .text s => .text s
  | .elem t a c =>
    .elem t (if exemptTag t then a else a.filter (fun p => allowedAttrs.contains p.1))
      (filtAttrsL c)
/-- List version of `filtAttrs`. -/
def filtAttrsL : NodeList → NodeList
  | .nil => .nil
  | .cons n ns => .cons (filtAttrs n) (filtAttrsL ns)
end

/-- `_filter_unsupported_elements`: remove script/style subtrees, then
strip non-allow-listed attributes everywhere. -/
def sanitize (n : Node) : Node := filtAttrs (dropSS n)

mutual
/-- Checker for the attribute allow-list closure: every element of the
subtree is either exempt or carries only allow-listed attribute keys. -/
def attrsClosedN : Node → Bool
  | .text _ => true
  | .elem t a c =>
    (exemptTag t || a.all (fun p => allowedAttrs.contains p.1)) && attrsClosedL c
/-- List version of `attrsClosedN`. -/
def attrsClosedL : NodeList → Bool
  | .nil => true
  | .cons n ns => attrsClosedN n && attrsClosedL ns
end

/-! ## Code block decoration (`_apply_mac_style_to_code_blocks`) -/

/-- Style of the chrome container `<div>`. -/
def containerStyle : String :=
  "background: #1E1E1E; border-radius: 5px; box-shadow: rgba(0, 0, 0, 0.55) 0px 2px 10px; margin-top: 20px; margin-bottom: 20px; overflow: hidden;"

/-- Style of the title-bar `<div>`. -/
def titleBarStyle : String :=
  "height: 30px; background-color: #1E1E1E; display: flex; align-items: center; padding-left: 10px;"

/-- Style of one colored indicator dot. -/
def dotStyle (color : String) : String :=
  "height: 12px; width: 12px; background-color: " ++ color ++
  "; border-radius: 50%; display: inline-block; margin-right: 8px;"

/-- A colored dot `<span>` of the title bar. -/
def dotNode (color : String) : Node := .elem "span" [("style", dotStyle color)] .nil

/-- The fixed title bar: three dots (red, yellow, green) and nothing else. -/
def titleBarNode : Node :=
  .elem "div" [("style", titleBarStyle)]
    (nl [dotNode "#ff5f56", dotNode "#ffbd2e", dotNode "#27c93f"])

/-- Style of the content-area `<div>`. -/
def contentStyle : String :=
  "padding: 16px; overflow-x: auto; color: #DCDCDC; font-family: Operator Mono, Consolas, Monaco, Menlo, monospace; font-size: 14px; line-height: 1.5;"

/-- Style put on the relocated `<pre>` itself. -/
def preStyleStr : String := "overflow-x: auto; background: #1E1E1E; padding: 0; margin: 0;"

/-- Style put on `pre_tag.code` (the first `<code>` descendant). -/
def codeStyleStr : String := "font-family: inherit; font-size: inherit;"

mutual
/-- `pre_tag.code`: find the first `<code>` descendant in pre-order and set
its style; `none` when there is no `<code>`. -/
def setCodeN : Node → Option Node
  | .text _ => none
  | .elem t a c =>
    if t == "code" then some (.elem t (setAttr "style" codeStyleStr a) c)
    else (setCodeL c).map (.elem t a)
/-- List version of `setCodeN`. -/
def setCodeL : NodeList → Option NodeList
  | .nil => none
  | .cons n ns =>
    match setCodeN n with
    | some n2 => some (.cons n2 ns)
    | none => (setCodeL ns).map (.cons n)
end

/-- Wrap one `<pre>` (attributes `a`, children `c`) in the macOS-style
chrome: container `<div>` → [title bar, content area [restyled `<pre>`]]. -/
def wrapPre (a : List (String × String)) (c : NodeList) : Node :=
  .elem "div" [("style", containerStyle)]
    (nl [titleBarNode,
      .elem "div" [("style", contentStyle)]
        (nl [.elem "pre" (setAttr "style" preStyleStr a) ((setCodeL c).getD c)])])

mutual
/-- `_apply_mac_style_to_code_blocks`: every `<pre>` is replaced by its
chrome wrapper; everything else is kept, descending into children. -/
def decorateN : Node → Node
  | .text s => .text s
  | .elem t a c =>
    if t == "pre" then wrapPre a (decorateL c) else .elem t a (decorateL c)
/-- List version of `decorateN`. -/
def decorateL : NodeList → NodeList
  | .nil => .nil
  | .cons n ns => .cons (decorateN n) (decorateL ns)
end

mutual
/-- The raw text content of a subtree: concatenation of the text nodes,
byte-identical (no stripping). -/
def rawTextsN : Node → List Char
  | .text s => s.toList
  | .elem _ _ c => rawTextsL c
/-- List version of `rawTextsN`. -/
def rawTextsL : NodeList → List Char
  | .nil => []
  | .cons n ns => rawTextsN n ++ rawTextsL ns
end

mutual
/-- Does some text node of the subtree read exactly `s`? -/
def hasTextNodeN (s : String) : Node → Bool
  | .text s2 => s2 == s
  | .elem _ _ c => hasTextNodeL s c
/-- List version of `hasTextNodeN`. -/
def hasTextNodeL (s : String) : NodeList → Bool
  | .nil => false
  | .cons n ns => hasTextNodeN s n || hasTextNodeL s ns
end

mutual
/-- All `class` attribute values of the subtree, in pre-order. -/
def classListN : Node → List String
  | .text _ => []
  | .elem _ a c =>
    (match getAttr "class" a with
     | some v => [v]
     | none => []) ++ classListL c
/-- List version of `classListN`. -/
def classListL : NodeList → List String
  | .nil => []
  | .cons n ns => classListN n ++ classListL ns
end

/-! ## Theme registry and body styling -/

/-- The nine style dictionaries imported from the `styles` package,
identified by name. -/
inductive ThemeId where
  | minimalist_white | blue | nice | green | geek_black
  | orange_red | blue_glow | dreamy_purple | bold_red
  deriving DecidableEq

/-- The `THEMES` registry of `renderer.py`: `"default"` is an alias of
`minimalist_white`. -/
def THEMES : List (String × ThemeId) :=
  [("default", .minimalist_white),
   ("minimalist_white", .minimalist_white),
   ("blue", .blue),
   ("nice", .nice),
   ("green", .green),
   ("geek_black", .geek_black),
   ("orange_red", .orange_red),
   ("blue_glow", .blue_glow),
   ("dreamy_purple", .dreamy_purple),
   ("bold_red", .bold_red)]

/-- Modelled from the spec: the `styles` package defining the nine theme
dictionaries is not part of the sources at hand; per §3 of the spec a Theme
is a (non-empty) immutable mapping, so each registry value is truthy for
the `if not theme` fallback test of `_load_theme`. -/
def themeTruthy : ThemeId → Bool := fun _ => true

theorem valid_add32 {n : Nat} (h1 : 65 ≤ n) (h2 : n ≤ 90) : (n + 32).isValidChar := by
  left
  omega

/-- ASCII lowercasing of one character; models Python `str.lower`, which
the registry only ever needs on ASCII names (uppercase letters are shifted
by 32, everything else is fixed). -/
def lowChar (c : Char) : Char :=
  if h : 65 ≤ c.toNat ∧ c.toNat ≤ 90 then Char.ofNatAux (c.toNat + 32) (valid_add32 h.1 h.2)
  else c

/-- `theme_name.lower()`. -/
def pyLower (s : String) : String := String.mk (s.toList.map lowChar)

/-- `_load_theme`: look the lowercased name up in `THEMES`; on a falsy
result fall back to `MINIMALIST_WHITE` and warn.  The boolean records
whether the warning was printed; the function is total, so no exception
can propagate. -/
def load_theme (name : String) : ThemeId × Bool :=
  match THEMES.lookup (pyLower name) with
  | some t => if themeTruthy t then (t, false) else (.minimalist_white, true)
  | none => (.minimalist_white, true)

/-- `theme.get(key, default)` on the theme dictionary. -/
def themeGet (theme : List (String × String)) (k d : String) : String :=
  match getAttr k theme with
  | some v => v
  | none => d

/-- The body text color `_apply_theme_styles` computes from the mode. -/
def bodyTextColor (theme : List (String × String)) (mode : String) : String :=
  if mode == "light" then "#333333" else themeGet theme "body_text_color" "#f0f0f0"

/-- The body background color `_apply_theme_styles` computes from the mode
(`body_bg_color` in the source); note that the source never uses this
value afterwards. -/
def bodyBgColor (theme : List (String × String)) (mode : String) : String :=
  if mode == "light" then "#ffffff" else themeGet theme "body_background_color" "#2e2e2e"

/-- `pyStripS`: Python `str.strip()` on a `String`. -/
def pyStripS (s : String) : String := String.mk (stripL s.toList)

/-- The inline style string assigned to `soup.body['style']`:
`f"background-color: #ffffff !important; color: {body_text_color}; {original_body_style}".strip()`. -/
def bodyStyleString (theme : List (String × String)) (mode : String) : String :=
  pyStripS ("background-color: #ffffff !important; color: " ++
    bodyTextColor theme mode ++ "; " ++ themeGet theme "body" "")

/-- The body-style assignment step of `_apply_theme_styles` on the tree:
sets the computed style string on a `<body>` element. -/
def applyBodyStyle (theme : List (String × String)) (mode : String) : Node → Node
  | .text s => .text s
  | .elem t a c =>
    if t == "body" then .elem t (setAttr "style" (bodyStyleString theme mode) a) c
    else .elem t a c

/-! ## The Markdown preprocessor (`_preprocess_markdown_text`) -/

/-- `[ \t]` of rule 2/3. -/
def isIndentChar (c : Char) : Bool := c = ' ' || c = '\t'

/-- `[\-\*\+]` of rule 2/3. -/
def isBulletChar (c : Char) : Bool := c = '-' || c = '*' || c = '+'

/-- Try to match `[ \t]*([\-\*\+]|\d+\.)\s` at the head of the input,
returning the matched characters and the remainder. -/
def listStart (xs : List Char) : Option (List Char × List Char) :=
  match xs.dropWhile isIndentChar with
  | [] => none
  | m :: r2 =>
    if isBulletChar m then
      match r2 with
      | w :: rem =>
        if pyIsSpace w then some (xs.takeWhile isIndentChar ++ [m, w], rem) else none
      | [] => none
    else
      match (m :: r2).dropWhile Char.isDigit with
      | '.' :: w :: rem =>
        if ((m :: r2).takeWhile Char.isDigit).isEmpty then none
        else if pyIsSpace w then
          some (xs.takeWhile isIndentChar ++ (m :: r2).takeWhile Char.isDigit ++ ['.', w], rem)
        else none
      | _ => none

theorem listStart_sound {xs m rem} (h : listStart xs = some (m, rem)) :
    m ++ rem = xs ∧ m ≠ [] := by
  have hind := List.takeWhile_append_dropWhile (p := isIndentChar) (l := xs)
  unfold listStart at h
  split at h
  · exact absurd h (by simp)
  next c r2 hsplit =>
    rw [hsplit] at hind
    split at h
    · split at h
      next w rem2 =>
        split at h
        · simp only [Option.some.injEq, Prod.mk.injEq] at h
          obtain ⟨hm, hr⟩ := h
          subst hm; subst hr
          exact ⟨by simpa using hind, by simp⟩
        · exact absurd h (by simp)
      · exact absurd h (by simp)
    · split at h
      next w rem2 hds =>
        have hdig := List.takeWhile_append_dropWhile (p := Char.isDigit) (l := c :: r2)
        rw [hds] at hdig
        split at h
        · exact absurd h (by simp)
        · split at h
          · simp only [Option.some.injEq, Prod.mk.injEq] at h
            obtain ⟨hm, hr⟩ := h
            subst hm; subst hr
            refine ⟨?_, by simp⟩
            calc xs.takeWhile isIndentChar ++ (c :: r2).takeWhile Char.isDigit ++ ['.', w] ++ rem2
                = xs.takeWhile isIndentChar ++
                    ((c :: r2).takeWhile Char.isDigit ++ ('.' :: w :: rem2)) := by
                  simp [List.append_assoc]
              _ = xs.takeWhile isIndentChar ++ (c :: r2) := by rw [hdig]
              _ = xs := hind
          · exact absurd h (by simp)
      · exact absurd h (by simp)

/-- Rule 2 of the preprocessor:
`re.sub(r'([^\n])\n([ \t]*([\-\*\+]|\d+\.)\s)', r'\1\n\n\2', text)` as a
left-to-right scan that, after a replacement, continues after the matched
span. -/
def sub2 : List Char → List Char
  | [] => []
  | [c] => [c]
  | c :: d :: rest2 =>
    if c ≠ '\n' ∧ d = '\n' then
      match h : listStart rest2 with
      | some (p, rem) => c :: '\n' :: '\n' :: (p ++ sub2 rem)
      | none => c :: sub2 (d :: rest2)
    else c :: sub2 (d :: rest2)
termination_by l => l.length
decreasing_by
  · simp only [List.length_cons]
    have hlen := congrArg List.length (listStart_sound h).1
    simp only [List.length_append] at hlen
    omega
  · simp
  · simp

/-- Scan for the lazy `.*?\]\(` part of rule 1: consume non-newline
characters until the first position where a literal `](` follows, and
return the consumed span (the `](` included) with the remainder. -/
def scanBracket : List Char → Option (List Char × List Char)
  | [] => none
  | c :: rest =>
    if c = ']' ∧ rest.head? = some '(' then some ([']', '('], rest.tail)
    else if c = '\n' then none
    else (scanBracket rest).map fun pr => (c :: pr.1, pr.2)

/-- Scan for the lazy `.*?\)` part of rule 1: consume non-newline
characters up to and including the first `)`. -/
def scanParen : List Char → Option (List Char × List Char)
  | [] => none
  | c :: rest =>
    if c = ')' then some ([')'], rest)
    else if c = '\n' then none
    else (scanParen rest).map fun pr => (c :: pr.1, pr.2)

/-- Parse `\[.*?\]\(.*?\)` at the head of the input. -/
def bracketLink : List Char → Option (List Char × List Char)
  | '[' :: rest =>
    match scanBracket rest with
    | some (m1, r1) =>
      match scanParen r1 with
      | some (m2, r2) => some ('[' :: (m1 ++ m2), r2)
      | none => none
    | none => none
  | _ => none

/-- The optional `!` of `<!?`: after a `<`, a leading `!` is consumed
together with the link when one follows. -/
def tryLink : List Char → Option (List Char × List Char)
  | '!' :: rest => bracketLink rest
  | xs => bracketLink xs

theorem scanBracket_len : ∀ xs m r, scanBracket xs = some (m, r) → r.length ≤ xs.length := by
  intro xs
  induction xs with
  | nil => intro m r h; simp [scanBracket] at h
  | cons c rest ih =>
    intro m r h
    simp only [scanBracket] at h
    split at h
    · next hc =>
      simp only [Option.some.injEq, Prod.mk.injEq] at h
      obtain ⟨_, hr⟩ := h
      subst hr
      rw [List.length_cons, List.length_tail]
      omega
    · split at h
      · exact absurd h (by simp)
      · cases heq : scanBracket rest with
        | none => rw [heq] at h; exact absurd h (by simp)
        | some pr =>
          rw [heq] at h
          simp only [Option.map_some', Option.some.injEq, Prod.mk.injEq] at h
          obtain ⟨_, hr⟩ := h
          subst hr
          have := ih pr.1 pr.2 (by rw [heq])
          rw [List.length_cons]
          omega

theorem scanParen_len : ∀ xs m r, scanParen xs = some (m, r) → r.length ≤ xs.length := by
  intro xs
  induction xs with
  | nil => intro m r h; simp [scanParen] at h
  | cons c rest ih =>
    intro m r h
    simp only [scanParen] at h
    split at h
    · simp only [Option.some.injEq, Prod.mk.injEq] at h
      obtain ⟨_, hr⟩ := h
      subst hr
      simp
    · split at h
      · exact absurd h (by simp)
      · cases heq : scanParen rest with
        | none => rw [heq] at h; exact absurd h (by simp)
        | some pr =>
          rw [heq] at h
          simp only [Option.map_some', Option.some.injEq, Prod.mk.injEq] at h
          obtain ⟨_, hr⟩ := h
          subst hr
          have := ih pr.1 pr.2 (by rw [heq])
          rw [List.length_cons]
          omega

theorem bracketLink_len : ∀ xs m r, bracketLink xs = some (m, r) → r.length ≤ xs.length := by
  intro xs m r h
  unfold bracketLink at h
  split at h
  · next rest =>
    cases h1 : scanBracket rest with
    | none => rw [h1] at h; exact absurd h (by simp)
    | some pr1 =>
      rw [h1] at h
      cases h2 : scanParen pr1.2 with
      | none => simp [h2] at h
      | some pr2 =>
        simp only [h2] at h
        simp only [Option.some.injEq, Prod.mk.injEq] at h
        obtain ⟨_, hr⟩ := h
        subst hr
        have k1 := scanBracket_len rest pr1.1 pr1.2 (by rw [h1])
        have k2 := scanParen_len pr1.2 pr2.1 pr2.2 (by rw [h2])
        rw [List.length_cons]
        omega
  · exact absurd h (by simp)

theorem tryLink_len : ∀ xs m r, tryLink xs = some (m, r) → r.length ≤ xs.length := by
  intro xs m r h
  unfold tryLink at h
  split at h
  · next rest =>
    have := bracketLink_len rest m r h
    rw [List.length_cons]
    omega
  · exact bracketLink_len xs m r h

/-- Rule 1 of the preprocessor:
`re.sub(r'<!?(\[.*?\]\(.*?\))', r'\1', text)`: drop a stray `<` / `<!`
before a Markdown link or image. -/
def sub1 : List Char → List Char
  | [] => []
  | c :: rest =>
    if c = '<' then
      match h : tryLink rest with
      | some (m, r) => m ++ sub1 r
      | none => c :: sub1 rest
    else c :: sub1 rest
termination_by l => l.length
decreasing_by
  all_goals simp only [List.length_cons]
  · have := tryLink_len _ _ _ h
    omega
  · omega
  · omega

/-- Match `[ \t]*[\-\*\+]\s.*\n` at the head of the input (the captured
group of rule 3a), returning the matched span and the remainder. -/
def bulletLine (xs : List Char) : Option (List Char × List Char) :=
  match xs.dropWhile isIndentChar with
  | m :: (w :: r3) =>
    if isBulletChar m && pyIsSpace w then
      match h : r3.dropWhile (fun ch => ch != '\n') with
      | '\n' :: after =>
        some (xs.takeWhile isIndentChar ++ m :: w ::
          (r3.takeWhile (fun ch => ch != '\n') ++ ['\n']), after)
      | _ => none
    else none
  | _ => none

/-- The lookahead `(?=[ \t]*\d+\.\s)` of rule 3a. -/
def olLookahead (xs : List Char) : Bool :=
  !((xs.dropWhile isIndentChar).takeWhile Char.isDigit).isEmpty &&
  (match (xs.dropWhile isIndentChar).dropWhile Char.isDigit with
   | '.' :: w :: _ => pyIsSpace w
   | _ => false)

/-- Match `[ \t]*\d+\.\s.*\n` at the head of the input (the captured group
of rule 3b). -/
def olLine (xs : List Char) : Option (List Char × List Char) :=
  if ((xs.dropWhile isIndentChar).takeWhile Char.isDigit).isEmpty then none
  else
    match (xs.dropWhile isIndentChar).dropWhile Char.isDigit with
    | '.' :: (w :: r3) =>
      if pyIsSpace w then
        match r3.dropWhile (fun ch => ch != '\n') with
        | '\n' :: after =>
          some (xs.takeWhile isIndentChar ++
            (xs.dropWhile isIndentChar).takeWhile Char.isDigit ++ '.' :: w ::
            (r3.takeWhile (fun ch => ch != '\n') ++ ['\n']), after)
        | _ => none
      else none
    | _ => none

/-- The lookahead `(?=[ \t]*[\-\*\+]\s)` of rule 3b. -/
def bulletLookahead (xs : List Char) : Bool :=
  match xs.dropWhile isIndentChar with
  | m :: w :: _ => isBulletChar m && pyIsSpace w
  | _ => false

theorem takeWhile_dropWhile_nl (r3 : List Char) {after : List Char}
    (h : r3.dropWhile (fun ch => ch != '\n') = '\n' :: after) :
    r3.takeWhile (fun ch => ch != '\n') ++ '\n' :: after = r3 := by
  have := List.takeWhile_append_dropWhile (p := fun ch => ch != '\n') (l := r3)
  rw [h] at this
  exact this

theorem bulletLine_sound {xs m after} (h : bulletLine xs = some (m, after)) :
    m ++ after = xs ∧ m ≠ [] := by
  have hind := List.takeWhile_append_dropWhile (p := isIndentChar) (l := xs)
  unfold bulletLine at h
  split at h
  next mc w r3 hsplit =>
    rw [hsplit] at hind
    split at h
    · split at h
      next after2 hnl =>
        simp only [Option.some.injEq, Prod.mk.injEq] at h
        obtain ⟨hm, hr⟩ := h
        subst hm; subst hr
        refine ⟨?_, by simp⟩
        have hbody := takeWhile_dropWhile_nl r3 hnl
        calc xs.takeWhile isIndentChar ++ mc :: w ::
              (r3.takeWhile (fun ch => ch != '\n') ++ ['\n']) ++ after2
            = xs.takeWhile isIndentChar ++ mc :: w ::
              (r3.takeWhile (fun ch => ch != '\n') ++ '\n' :: after2) := by
              simp [List.append_assoc]
          _ = xs.takeWhile isIndentChar ++ mc :: w :: r3 := by rw [hbody]
          _ = xs := hind
      · exact absurd h (by simp)
    · exact absurd h (by simp)
  · exact absurd h (by simp)

theorem olLine_sound {xs m after} (h : olLine xs = some (m, after)) :
    m ++ after = xs ∧ m ≠ [] := by
  have hind := List.takeWhile_append_dropWhile (p := isIndentChar) (l := xs)
  have hdig := List.takeWhile_append_dropWhile (p := Char.isDigit)
    (l := xs.dropWhile isIndentChar)
  unfold olLine at h
  split at h
  · exact absurd h (by simp)
  · split at h
    next w r3 hsplit =>
      rw [hsplit] at hdig
      split at h
      · split at h
        next after2 hnl =>
          simp only [Option.some.injEq, Prod.mk.injEq] at h
          obtain ⟨hm, hr⟩ := h
          subst hm; subst hr
          refine ⟨?_, by simp⟩
          have hbody := takeWhile_dropWhile_nl r3 hnl
          calc xs.takeWhile isIndentChar ++
                (xs.dropWhile isIndentChar).takeWhile Char.isDigit ++ '.' :: w ::
                (r3.takeWhile (fun ch => ch != '\n') ++ ['\n']) ++ after2
              = xs.takeWhile isIndentChar ++
                ((xs.dropWhile isIndentChar).takeWhile Char.isDigit ++ '.' :: w ::
                (r3.takeWhile (fun ch => ch != '\n') ++ '\n' :: after2)) := by
                simp [List.append_assoc]
            _ = xs.takeWhile isIndentChar ++
                ((xs.dropWhile isIndentChar).takeWhile Char.isDigit ++ '.' :: w :: r3) := by
                rw [hbody]
            _ = xs.takeWhile isIndentChar ++ xs.dropWhile isIndentChar := by rw [hdig]
            _ = xs := hind
        · exact absurd h (by simp)
      · exact absurd h (by simp)
    · exact absurd h (by simp)

/-- Rule 3a of the preprocessor:
`re.sub(r'([ \t]*[\-\*\+]\s.*\n)(?=[ \t]*\d+\.\s)', r'\1\n', text)`:
insert a blank line between a bullet-list line and a following
ordered-list line. -/
def sub3a : List Char → List Char
  | [] => []
  | c :: rest =>
    match h : bulletLine (c :: rest) with
    | some (m, after) =>
      if olLookahead after then m ++ '\n' :: sub3a after else c :: sub3a rest
    | none => c :: sub3a rest
termination_by l => l.length
decreasing_by
  · have hs := bulletLine_sound h
    have hlen := congrArg List.length hs.1
    simp only [List.length_append, List.length_cons] at hlen
    have : m.length ≠ 0 := by
      intro h0
      exact hs.2 (List.length_eq_zero.mp h0)
    simp only [List.length_cons]
    omega
  · simp
  · simp

/-- Rule 3b of the preprocessor:
`re.sub(r'([ \t]*\d+\.\s.*\n)(?=[ \t]*[\-\*\+]\s)', r'\1\n', text)`. -/
def sub3b : List Char → List Char
  | [] => []
  | c :: rest =>
    match h : olLine (c :: rest) with
    | some (m, after) =>
      if bulletLookahead after then m ++ '\n' :: sub3b after else c :: sub3b rest
    | none => c :: sub3b rest
termination_by l => l.length
decreasing_by
  · have hs := olLine_sound h
    have hlen := congrArg List.length hs.1
    simp only [List.length_append, List.length_cons] at hlen
    have : m.length ≠ 0 := by
      intro h0
      exact hs.2 (List.length_eq_zero.mp h0)
    simp only [List.length_cons]
    omega
  · simp
  · simp

/-- The fence character of rule 4 (a code fence line starts with three of
these after stripping). -/
def fenceChar : Char := "`".toList.headD ' '

/-- `line.strip().startswith('```')`. -/
def isFenceLine (l : List Char) : Bool :=
  match stripL l with
  | c1 :: c2 :: c3 :: _ => c1 = fenceChar && c2 = fenceChar && c3 = fenceChar
  | _ => false

/-- `line.startswith('    ')`. -/
def startsWith4Sp : List Char → Bool
  | ' ' :: ' ' :: ' ' :: ' ' :: _ => true
  | _ => false

/-- `text.split('\n')`. -/
def splitNl : List Char → List (List Char)
  | [] => [[]]
  | c :: rest =>
    if c = '\n' then [] :: splitNl rest
    else
      match splitNl rest with
      | l :: ls => (c :: l) :: ls
      | [] => [[c]]

/-- `'\n'.join(lines)`. -/
def joinNl : List (List Char) → List Char
  | [] => []
  | [l] => l
  | l :: ls => l ++ '\n' :: joinNl ls

/-- The line loop of rule 4: toggle the fence state on ``` lines, and strip
a leading 4-space indent from non-blank lines outside code fences (the
state is updated before the test, exactly as in the source). -/
def rule4Go : Bool → List (List Char) → List (List Char)
  | _, [] => []
  | inCode, l :: ls =>
    (if !(if isFenceLine l then !inCode else inCode) && startsWith4Sp l &&
        !(stripL l).isEmpty then l.drop 4 else l) ::
      rule4Go (if isFenceLine l then !inCode else inCode) ls

/-- `_preprocess_markdown_text`: rules 1–4 in source order. -/
def preprocess_markdown_text (s : String) : String :=
  String.mk (joinNl (rule4Go false (splitNl (sub3b (sub3a (sub2 (sub1 s.toList)))))))

/-! ## Lemmas about the sanitizing filter -/

theorem filter_idem {α} (p : α → Bool) : ∀ l : List α, (l.filter p).filter p = l.filter p := by
  intro l
  induction l with
  | nil => rfl
  | cons x xs ih =>
    by_cases h : p x
    · simp [List.filter_cons, h, ih]
    · simp [List.filter_cons, h, ih]

theorem isSS_filt_dropSS (n : Node) (h : isSS n = false) :
    isSS (filtAttrs (dropSS n)) = false := by
  cases n with
  | text s => simp [dropSS, filtAttrs, isSS]
  | elem t a c =>
    simp only [isSS] at h
    simp [dropSS, filtAttrs, isSS, h]

mutual
theorem dropSS_fix : ∀ n, dropSS (filtAttrs (dropSS n)) = filtAttrs (dropSS n)
  | .text _ => rfl
  | .elem t a c => by
    simp only [dropSS, filtAttrs]
    exact congrArg _ (dropSSL_fix c)
theorem dropSSL_fix : ∀ l, dropSSL (filtAttrsL (dropSSL l)) = filtAttrsL (dropSSL l)
  | .nil => rfl
  | .cons n ns => by
    by_cases h : isSS n
    · simp only [dropSSL, h, if_true]
      exact dropSSL_fix ns
    · simp only [dropSSL, h, Bool.false_eq_true, if_false, filtAttrsL]
      have hss := isSS_filt_dropSS n (by simp [h])
      simp only [dropSSL, hss, Bool.false_eq_true, if_false]
      rw [dropSS_fix n, dropSSL_fix ns]
end

mutual
theorem filtAttrs_idem : ∀ n, filtAttrs (filtAttrs n) = filtAttrs n
  | .text _ => rfl
  | .elem t a c => by
    by_cases h : exemptTag t
    · simp [filtAttrs, h, filtAttrsL_idem c]
    · simp [filtAttrs, h, filtAttrsL_idem c, filter_idem]
theorem filtAttrsL_idem : ∀ l, filtAttrsL (filtAttrsL l) = filtAttrsL l
  | .nil => rfl
  | .cons n ns => by
    simp only [filtAttrsL]
    rw [filtAttrs_idem n, filtAttrsL_idem ns]
end

/-- C4: the sanitizing filter `_filter_unsupported_elements` is idempotent:
applying it twice to any element tree gives the same tree as applying it
once. -/
theorem C4_sanitize_idempotent (n : Node) : sanitize (sanitize n) = sanitize n := by
  unfold sanitize
  rw [dropSS_fix n, filtAttrs_idem]

theorem all_filter_self {α} (p : α → Bool) (l : List α) :
    (l.filter p).all p = true := by
  simp only [List.all_eq_true]
  intro x hx
  exact List.of_mem_filter hx

mutual
theorem attrsClosedN_filt : ∀ n, attrsClosedN (filtAttrs n) = true
  | .text _ => rfl
  | .elem t a c => by
    by_cases h : exemptTag t
    · simp [filtAttrs, attrsClosedN, h, attrsClosedL_filt c]
    · simp [filtAttrs, attrsClosedN, h, attrsClosedL_filt c, all_filter_self]
theorem attrsClosedL_filt : ∀ l, attrsClosedL (filtAttrsL l) = true
  | .nil => rfl
  | .cons n ns => by
    simp only [filtAttrsL, attrsClosedL]
    rw [attrsClosedN_filt n, attrsClosedL_filt ns]
    rfl
end

/-- C7: after `_filter_unsupported_elements`, every element whose tag is not
`html`/`body`/`head`/`mp-common-profile` carries only allow-listed attribute
keys, and the exempt profile-card tag keeps its attributes untouched. -/
theorem C7_attr_allowlist_closure :
    (∀ n, attrsClosedN (sanitize n) = true) ∧
    (∀ a c, attrsOf (sanitize (.elem "mp-common-profile" a c)) = a) := by
  constructor
  · intro n
    unfold sanitize
    exact attrsClosedN_filt _
  · intro a c
    rfl

/-! ## Lemmas about theme loading and the body style -/

theorem toNat_ofNatAux {n : Nat} (h : n.isValidChar) : (Char.ofNatAux n h).toNat = n := rfl

theorem lowChar_idem (c : Char) : lowChar (lowChar c) = lowChar c := by
  unfold lowChar
  split
  · rw [dif_neg]
    rw [toNat_ofNatAux]
    omega
  · rfl

theorem map_lowChar_idem : ∀ l : List Char, (l.map lowChar).map lowChar = l.map lowChar := by
  intro l
  induction l with
  | nil => rfl
  | cons x xs ih => simp only [List.map_cons, lowChar_idem x, ih]

theorem pyLower_idem (s : String) : pyLower (pyLower s) = pyLower s := by
  show String.mk ((s.toList.map lowChar).map lowChar) = String.mk (s.toList.map lowChar)
  rw [map_lowChar_idem]

/-- C8: `_load_theme` is total (no exception escapes): for every name
string, an unknown (lowercased) name yields the fixed default
`minimalist_white` together with the warning flag, and a known name yields
exactly the registered theme with no warning. -/
theorem C8_load_theme_total_fallback (s : String) :
    (THEMES.lookup (pyLower s) = none → load_theme s = (ThemeId.minimalist_white, true)) ∧
    (∀ t, THEMES.lookup (pyLower s) = some t → load_theme s = (t, false)) := by
  constructor
  · intro h
    unfold load_theme
    rw [h]
  · intro t h
    unfold load_theme
    rw [h]
    rfl

/-- Witness for C8: an unknown theme name falls back to the default with a
warning, a known (differently-cased) name resolves to its theme. -/
theorem C8_load_theme_witness :
    load_theme "no_such_theme" = (ThemeId.minimalist_white, true) ∧
    load_theme "BLUE" = (ThemeId.blue, false) :=
  ⟨(C8_load_theme_total_fallback "no_such_theme").1 rfl,
   (C8_load_theme_total_fallback "BLUE").2 ThemeId.blue rfl⟩

/-- C10: theme selection is case-insensitive (`load_theme s` equals
`load_theme` of the lowercased name, since the name is lowercased before
the registry lookup), and `"default"` selects the same theme as
`"minimalist_white"`. -/
theorem C10_theme_case_insensitive_alias :
    (∀ s : String, load_theme s = load_theme (pyLower s)) ∧
    load_theme "default" = load_theme "minimalist_white" := by
  constructor
  · intro s
    unfold load_theme
    rw [pyLower_idem]
  · rfl

/-- C1 (code bug evidence): with a theme defining a dark background
`#000000` and dark text `#abcdef`, rendering in `mode="dark"` still forces
`background-color: #ffffff !important` on the body (only the text color
follows the theme), even though the dark background color is computed
(`bodyBgColor` = the source's unused `body_bg_color`) and the light branch
behaves as documented. -/
theorem C1_dark_mode_background_forced_white :
    applyBodyStyle [("body_background_color", "#000000"), ("body_text_color", "#abcdef")]
        "dark" (.elem "body" [] .nil)
      = .elem "body" [("style", "background-color: #ffffff !important; color: #abcdef;")] .nil ∧
    bodyBgColor [("body_background_color", "#000000"), ("body_text_color", "#abcdef")] "dark"
      = "#000000" ∧
    applyBodyStyle [("body_background_color", "#000000"), ("body_text_color", "#abcdef")]
        "light" (.elem "body" [] .nil)
      = .elem "body" [("style", "background-color: #ffffff !important; color: #333333;")] .nil :=
  ⟨rfl, rfl, rfl⟩

/-! ## Lemmas about the code-block decorator -/

theorem getAttr_setAttr_ne (k k2 v : String) (a : List (String × String)) (h : k ≠ k2) :
    getAttr k (setAttr k2 v a) = getAttr k a := by
  induction a with
  | nil =>
    simp only [setAttr, getAttr]
    rw [if_neg]
    simp only [beq_iff_eq]
    exact Ne.symm h
  | cons p rest ih =>
    simp only [setAttr]
    by_cases hp : (p.1 == k2) = true
    · rw [if_pos hp]
      have hpk : p.1 = k2 := by simpa using hp
      simp only [getAttr]
      rw [if_neg (by simpa using Ne.symm h), if_neg (by simp [hpk]; exact Ne.symm (hpk ▸ h))]
    · rw [if_neg hp]
      simp only [getAttr]
      by_cases hk : (p.1 == k) = true
      · rw [if_pos hk, if_pos hk]
      · rw [if_neg hk, if_neg hk]
        exact ih

mutual
theorem setCodeN_pres : ∀ n n2, setCodeN n = some n2 →
    rawTextsN n2 = rawTextsN n ∧ classListN n2 = classListN n
  | .text _, n2, h => by simp [setCodeN] at h
  | .elem t a c, n2, h => by
    simp only [setCodeN] at h
    by_cases ht : (t == "code") = true
    · rw [if_pos ht] at h
      simp only [Option.some.injEq] at h
      subst h
      refine ⟨rfl, ?_⟩
      simp only [classListN]
      rw [getAttr_setAttr_ne "class" "style" codeStyleStr a (by decide)]
    · rw [if_neg ht] at h
      cases hC : setCodeL c with
      | none => rw [hC] at h; exact absurd h (by simp)
      | some c2 =>
        rw [hC] at h
        simp only [Option.map_some', Option.some.injEq] at h
        subst h
        have := setCodeL_pres c c2 hC
        exact ⟨by simp [rawTextsN, this.1], by simp [classListN, this.2]⟩
theorem setCodeL_pres : ∀ l l2, setCodeL l = some l2 →
    rawTextsL l2 = rawTextsL l ∧ classListL l2 = classListL l
  | .nil, l2, h => by simp [setCodeL] at h
  | .cons n ns, l2, h => by
    simp only [setCodeL] at h
    cases hN : setCodeN n with
    | some n2 =>
      rw [hN] at h
      simp only [Option.some.injEq] at h
      subst h
      have := setCodeN_pres n n2 hN
      exact ⟨by simp [rawTextsL, this.1], by simp [classListL, this.2]⟩
    | none =>
      rw [hN] at h
      cases hL : setCodeL ns with
      | none => rw [hL] at h; exact absurd h (by simp)
      | some ns2 =>
        rw [hL] at h
        simp only [Option.map_some', Option.some.injEq] at h
        subst h
        have := setCodeL_pres ns ns2 hL
        exact ⟨by simp [rawTextsL, this.1], by simp [classListL, this.2]⟩
end

theorem setCode_getD_rawTexts (c : NodeList) :
    rawTextsL ((setCodeL c).getD c) = rawTextsL c := by
  cases hC : setCodeL c with
  | none => rfl
  | some c2 => simpa using (setCodeL_pres c c2 hC).1

theorem setCode_getD_classes (c : NodeList) :
    classListL ((setCodeL c).getD c) = classListL c := by
  cases hC : setCodeL c with
  | none => rfl
  | some c2 => simpa using (setCodeL_pres c c2 hC).2

mutual
theorem decorateN_rawTexts : ∀ n, rawTextsN (decorateN n) = rawTextsN n
  | .text _ => rfl
  | .elem t a c => by
    simp only [decorateN]
    by_cases ht : (t == "pre") = true
    · rw [if_pos ht]
      show rawTextsN (wrapPre a (decorateL c)) = rawTextsL c
      simp only [wrapPre, rawTextsN, rawTextsL, nl, titleBarNode, dotNode]
      simp only [List.append_nil, List.nil_append, List.append_assoc]
      rw [setCode_getD_rawTexts (decorateL c), decorateL_rawTexts c]
    · rw [if_neg ht]
      show rawTextsL (decorateL c) = rawTextsL c
      exact decorateL_rawTexts c
theorem decorateL_rawTexts : ∀ l, rawTextsL (decorateL l) = rawTextsL l
  | .nil => rfl
  | .cons n ns => by
    simp only [decorateL, rawTextsL]
    rw [decorateN_rawTexts n, decorateL_rawTexts ns]
end

mutual
theorem decorateN_classes : ∀ n, classListN (decorateN n) = classListN n
  | .text _ => rfl
  | .elem t a c => by
    simp only [decorateN]
    by_cases ht : (t == "pre") = true
    · rw [if_pos ht]
      show classListN (wrapPre a (decorateL c)) = _
      simp only [wrapPre, classListN, classListL, nl, titleBarNode, dotNode]
      rw [getAttr_setAttr_ne "class" "style" preStyleStr a (by decide)]
      rw [setCode_getD_classes (decorateL c), decorateL_classes c]
      simp [getAttr]
    · rw [if_neg ht]
      simp only [classListN]
      rw [decorateL_classes c]
theorem decorateL_classes : ∀ l, classListL (decorateL l) = classListL l
  | .nil => rfl
  | .cons n ns => by
    simp only [decorateL, classListL]
    rw [decorateN_classes n, decorateL_classes ns]
end

/-- C2 counterexample: on `<pre><code class="language-python">print(1)</code></pre>`
the decorator's output contains no text node reading `"python"` anywhere —
in particular no language label in the title bar — while the code text
`print(1)` and its `language-python` class do survive. -/
theorem C2_no_language_label_counterexample :
    hasTextNodeN "python" (decorateN (.elem "body" []
        (nl [.elem "pre" [] (nl [.elem "code" [("class", "language-python")]
          (nl [.text "print(1)"])])]))) = false ∧
    hasTextNodeN "print(1)" (decorateN (.elem "body" []
        (nl [.elem "pre" [] (nl [.elem "code" [("class", "language-python")]
          (nl [.text "print(1)"])])]))) = true ∧
    classListN (decorateN (.elem "body" []
        (nl [.elem "pre" [] (nl [.elem "code" [("class", "language-python")]
          (nl [.text "print(1)"])])]))) = ["language-python"] :=
  ⟨rfl, rfl, rfl⟩

/-- C2 (amended): the decorator wraps every `<pre>` in chrome whose title
bar is exactly the three colored dots — no language label is produced, even
when the nested `<code>` carries a `language-XXXX` class — while all text
content and all `class` attributes (the code's class included) survive
unchanged in the content area. -/
theorem C2_chrome_three_dots_no_label :
    (∀ a c, decorateN (.elem "pre" a c) =
      .elem "div" [("style", containerStyle)] (nl [titleBarNode,
        .elem "div" [("style", contentStyle)]
          (nl [.elem "pre" (setAttr "style" preStyleStr a)
            ((setCodeL (decorateL c)).getD (decorateL c))])])) ∧
    (∀ n, rawTextsN (decorateN n) = rawTextsN n) ∧
    (∀ n, classListN (decorateN n) = classListN n) :=
  ⟨fun _ _ => rfl, decorateN_rawTexts, decorateN_classes⟩

/-! ## C3: the claimed multi-child first-paragraph unwrap -/

/-- C3 counterexample: an item with two `<p>` children (more than one
child, the first remaining child a `<p>`) is restructured with the first
`<p>` still intact inside the marker `<section>` — it is not replaced by
its own children, contradicting the claimed extra unwrap step. -/
theorem C3_first_p_not_unwrapped_counterexample :
    procListN 0 (.elem "ul" [] (nl [.elem "li" []
        (nl [.elem "p" [] (nl [.text "a"]), .elem "p" [] (nl [.text "b"])])]))
    = .elem "ul" [("style", listStyleStr)]
        (nl [.elem "li" [("style", liStyleStr 0)]
          (nl [.elem "section" []
            (nl [markerSpan false 1,
                 .elem "p" [] (nl [.text "a"]),
                 .elem "p" [] (nl [.text "b"])])])]) := rfl

/-- C3 (amended): the restructurer unwraps a `<p>` only through the
single-child rule (exactly one element child and a `<p>` descendant); when
a surviving item has a number of element children different from one, its
(nested-processed) children are moved into the marker `<section>`
unchanged — no first-paragraph unwrap takes place. -/
theorem C3_multi_child_items_not_unwrapped
    (ordered : Bool) (level cnt : Nat) (a : List (String × String))
    (c : NodeList) (ns : NodeList)
    (hcount : countElems (procNested level c) ≠ 1)
    (hdead : liDead (procNested level c) = false) :
    procItems ordered level cnt (.cons (.elem "li" a c) ns) =
      .cons (newLi ordered level cnt a (procNested level c))
        (procItems ordered level (if ordered then cnt + 1 else cnt) ns) := by
  have h1 : (countElems (procNested level c) == 1) = false := by
    simpa using hcount
  simp [procItems, h1, hdead]

/-- Witness for the amended C3 at the two-paragraph item. -/
theorem C3_multi_child_items_not_unwrapped_witness :
    procItems false 0 1 (.cons (.elem "li" []
        (nl [.elem "p" [] (nl [.text "a"]), .elem "p" [] (nl [.text "b"])])) .nil) =
      .cons (newLi false 0 1 []
          (procNested 0 (nl [.elem "p" [] (nl [.text "a"]), .elem "p" [] (nl [.text "b"])])))
        (procItems false 0 1 .nil) :=
  C3_multi_child_items_not_unwrapped false 0 1 []
    (nl [.elem "p" [] (nl [.text "a"]), .elem "p" [] (nl [.text "b"])]) .nil
    (by decide) (by decide)

/-! ## C5: ordinal contiguity of ordered-list markers -/

theorem isLi_newLi (o : Bool) (lvl cnt : Nat) (a : List (String × String)) (c2 : NodeList) :
    isLi (newLi o lvl cnt a c2) = true := rfl

theorem markerOf_newLi (o : Bool) (lvl cnt : Nat) (a : List (String × String)) (c2 : NodeList) :
    markerOf (newLi o lvl cnt a c2) = some (markerText o cnt) := rfl

theorem markers_cons_step (level cnt : Nat) (a : List (String × String))
    (c2 rest : NodeList)
    (ih : markersOf rest = (List.range (countLis rest)).map
      (fun i => some (numMark (cnt + 1 + i)))) :
    markersOf (.cons (newLi true level cnt a c2) rest) =
      (List.range (countLis (.cons (newLi true level cnt a c2) rest))).map
        (fun i => some (numMark (cnt + i))) := by
  simp only [markersOf, isLi_newLi, if_true, markerOf_newLi, countLis, ih]
  rw [Nat.add_comm 1 (countLis rest), List.range_succ_eq_map]
  rw [List.map_cons, List.map_map]
  congr 1
  refine List.map_congr_left fun i _ => ?_
  simp only [Function.comp_apply]
  have hx : cnt + 1 + i = cnt + Nat.succ i := by omega
  rw [hx]

theorem markers_general : ∀ (cs : NodeList) (level cnt : Nat),
    markersOf (procItems true level cnt cs) =
      (List.range (countLis (procItems true level cnt cs))).map
        (fun i => some (numMark (cnt + i)))
  | .nil, level, cnt => by simp [procItems, markersOf, countLis]
  | .cons (.text s) ns, level, cnt => by
    have ih := markers_general ns level cnt
    simp [procItems, markersOf, countLis, isLi, ih]
  | .cons (.elem t a c) ns, level, cnt => by
    by_cases ht : (t == "li") = true
    · simp only [procItems, ht, if_true]
      split <;> split
      · exact markers_general ns level cnt
      · exact markers_cons_step level cnt a _ _ (markers_general ns level (cnt + 1))
      · exact markers_general ns level cnt
      · exact markers_cons_step level cnt a _ _ (markers_general ns level (cnt + 1))
    · have ih := markers_general ns level cnt
      simp [procItems, ht, markersOf, countLis, isLi, ih]

/-- C5: for every ordered list, the markers of the direct `<li>` children
of the restructured output read `"1.", "2.", …, "k."` (each followed by the
non-breaking space that replaces the marker's space) in sibling order,
where `k` is the number of surviving items: the counter starts at 1 per
list instance and increments exactly once per surviving item. -/
theorem C5_ordinal_contiguity (level : Nat) (a : List (String × String)) (cs : NodeList) :
    markersOf (childrenOf (procListN level (.elem "ol" a cs))) =
      (List.range (countLis (childrenOf (procListN level (.elem "ol" a cs))))).map
        (fun i => some (numMark (i + 1))) := by
  show markersOf (procItems true level 1 cs) =
    (List.range (countLis (procItems true level 1 cs))).map (fun i => some (numMark (i + 1)))
  rw [markers_general cs level 1]
  exact List.map_congr_left fun i _ => by rw [Nat.add_comm]

/-! ## C6: the list-item survival invariant -/

theorem mem_dropWhile_of_not (p : Char → Bool) :
    ∀ (l : List Char) (a : Char), a ∈ l → p a = false → a ∈ l.dropWhile p := by
  intro l
  induction l with
  | nil => intro a h _; simp at h
  | cons x xs ih =>
    intro a hmem hpa
    by_cases hx : p x = true
    · rw [List.dropWhile_cons, if_pos hx]
      rcases List.mem_cons.mp hmem with rfl | hm
      · rw [hpa] at hx; cases hx
      · exact ih a hm hpa
    · rw [List.dropWhile_cons, if_neg hx]
      exact hmem

theorem mem_stripL (l : List Char) (a : Char) (hmem : a ∈ l) (ha : pyIsSpace a = false) :
    a ∈ stripL l := by
  unfold stripL
  apply List.mem_reverse.mpr
  apply mem_dropWhile_of_not _ _ _ _ ha
  apply List.mem_reverse.mpr
  exact mem_dropWhile_of_not _ _ _ hmem ha

theorem mem_markerText (o : Bool) (cnt : Nat) :
    (if o then '.' else '•') ∈ (markerText o cnt).toList := by
  cases o with
  | false => simp [markerText]
  | true =>
    simp only [markerText, if_true]
    show '.' ∈ (Nat.repr cnt ++ "." ++ "\xA0").data
    rw [String.data_append, String.data_append]
    apply List.mem_append.mpr
    left
    apply List.mem_append.mpr
    right
    simp [String.data]

theorem markerChar_not_space (o : Bool) : pyIsSpace (if o then '.' else '•') = false := by
  cases o <;> decide

theorem markerChar_ne_nbsp (o : Bool) : ((if o then '.' else '•') != nbspChar) = true := by
  cases o <;> decide

theorem normTextN_newLi_ne (o : Bool) (lvl cnt : Nat) (a : List (String × String))
    (c2 : NodeList) : normTextN (newLi o lvl cnt a c2) ≠ [] := by
  have h1 : (if o then '.' else '•') ∈ getTextN (newLi o lvl cnt a c2) := by
    simp only [newLi, markerSpan, getTextN, getTextL, List.append_nil]
    apply List.mem_append.mpr
    left
    exact mem_stripL _ _ (mem_markerText o cnt) (markerChar_not_space o)
  have h2 : (if o then '.' else '•') ∈
      (getTextN (newLi o lvl cnt a c2)).filter (fun ch => ch != nbspChar) :=
    List.mem_filter.mpr ⟨h1, markerChar_ne_nbsp o⟩
  have h3 : (if o then '.' else '•') ∈ normTextN (newLi o lvl cnt a c2) := by
    unfold normTextN
    exact mem_stripL _ _ h2 (markerChar_not_space o)
  exact List.ne_nil_of_mem h3

theorem liOK_newLi (o : Bool) (lvl cnt : Nat) (a : List (String × String)) (c2 : NodeList) :
    liOK (newLi o lvl cnt a c2) = true := by
  have hne := normTextN_newLi_ne o lvl cnt a c2
  unfold liOK
  cases hn : normTextN (newLi o lvl cnt a c2) with
  | nil => exact absurd hn hne
  | cons x xs => simp [List.isEmpty]

/-- C6 (amended): every direct `<li>` child of a list actually processed
by the restructurer (each processed list's items pass through `procItems`,
top-level lists and lists reached recursively alike) satisfies the survival
condition: nonempty normalized text or an `<img>` descendant — indeed every
survivor's marker span alone already makes its text nonempty.  Lists
sitting inside non-list containers within an item are never reached by the
recursion and are exempt. -/
theorem C6_processed_list_items_survival : ∀ (cs : NodeList) (ordered : Bool) (level cnt : Nat),
    allLisOK (procItems ordered level cnt cs) = true
  | .nil, _, _, _ => rfl
  | .cons (.text s) ns, o, lvl, cnt => by
    simp [procItems, allLisOK, isLi, C6_processed_list_items_survival ns o lvl cnt]
  | .cons (.elem t a c) ns, o, lvl, cnt => by
    by_cases ht : (t == "li") = true
    · simp only [procItems, ht, if_true]
      split <;> split
      · exact C6_processed_list_items_survival ns o lvl cnt
      · simp [allLisOK, isLi_newLi, liOK_newLi, C6_processed_list_items_survival ns o lvl _]
      · exact C6_processed_list_items_survival ns o lvl cnt
      · simp [allLisOK, isLi_newLi, liOK_newLi, C6_processed_list_items_survival ns o lvl _]
    · simp [procItems, ht, allLisOK, isLi, C6_processed_list_items_survival ns o lvl cnt]

/-- C6 counterexample: a list nested inside a `<blockquote>` within an item
is never reached by the restructurer's recursion, so its empty `<li>`
survives the whole pass with empty text and no `<img>` — the tree leaving
`_process_lists` still contains a bad `<li>`, refuting the universal
survival invariant as claimed. -/
theorem C6_nested_list_escape_counterexample :
    processListsN (.elem "body" [] (nl [.elem "ul" [] (nl [.elem "li" []
        (nl [.elem "blockquote" [] (nl [.elem "ul" [] (nl [.elem "li" [] .nil])]),
             .text "a"])])]))
      = .elem "body" [] (nl [.elem "ul" [("style", listStyleStr)]
          (nl [.elem "li" [("style", liStyleStr 0)]
            (nl [.elem "section" []
              (nl [markerSpan false 1,
                   .elem "blockquote" [] (nl [.elem "ul" [] (nl [.elem "li" [] .nil])]),
                   .text "a"])])])]) ∧
    anyBadLiN (processListsN (.elem "body" [] (nl [.elem "ul" [] (nl [.elem "li" []
        (nl [.elem "blockquote" [] (nl [.elem "ul" [] (nl [.elem "li" [] .nil])]),
             .text "a"])])]))) = true :=
  ⟨rfl, rfl⟩

/-! ## C9: the blank-line rule of the preprocessor -/

theorem sub1_id : ∀ l : List Char, '<' ∉ l → sub1 l = l
  | [], _ => by simp [sub1]
  | c :: rest, h => by
    have hc : ¬(c = '<') := fun hc => h (hc ▸ List.mem_cons_self c rest)
    have hr : '<' ∉ rest := fun hm => h (List.mem_cons_of_mem c hm)
    simp only [sub1]
    rw [if_neg hc, sub1_id rest hr]

theorem bullet_not_indent {mk : Char} (hmk : isBulletChar mk = true) :
    isIndentChar mk = false := by
  have hcases : (mk = '-' ∨ mk = '*') ∨ mk = '+' := by
    have := hmk
    unfold isBulletChar at this
    simpa using this
  rcases hcases with (rfl | rfl) | rfl <;> decide

theorem listStart_bullet (mk : Char) (rest : List Char) (hmk : isBulletChar mk = true) :
    listStart (mk :: ' ' :: rest) = some ([mk, ' '], rest) := by
  have hind := bullet_not_indent hmk
  unfold listStart
  rw [List.dropWhile_cons, if_neg (by simp [hind])]
  simp [hmk, List.takeWhile_cons, hind, pyIsSpace]

theorem sub2_blank_line : ∀ (p : List Char) (mk : Char) (rest : List Char),
    p ≠ [] → '\n' ∉ p → isBulletChar mk = true →
    sub2 (p ++ '\n' :: mk :: ' ' :: rest) =
      p ++ '\n' :: '\n' :: mk :: ' ' :: sub2 rest
  | [], _, _, hne, _, _ => absurd rfl hne
  | [a], mk, rest, _, hnl, hmk => by
    have ha : ¬(a = '\n') := by
      intro e
      exact hnl (by simp [e])
    show sub2 (a :: '\n' :: mk :: ' ' :: rest) = _
    simp only [sub2]
    rw [if_pos (⟨ha, by trivial⟩ : ¬(a = '\n') ∧ _)]
    split
    next p2 rem hsome =>
      rw [listStart_bullet mk rest hmk] at hsome
      simp only [Option.some.injEq, Prod.mk.injEq] at hsome
      obtain ⟨hp, hr⟩ := hsome
      subst hp; subst hr
      simp
    next hnone =>
      rw [listStart_bullet mk rest hmk] at hnone
      cases hnone
  | a :: b :: p', mk, rest, _, hnl, hmk => by
    have ha : ¬(a = '\n') := fun e => hnl (by simp [e])
    have hbp : '\n' ∉ (b :: p') := fun hm => hnl (List.mem_cons_of_mem a hm)
    have hb : ¬(b = '\n') := fun e => hbp (by simp [e])
    show sub2 (a :: (b :: p' ++ '\n' :: mk :: ' ' :: rest)) = _
    simp only [List.cons_append]
    simp only [sub2]
    rw [if_neg (fun hcon => hb hcon.2)]
    have ih := sub2_blank_line (b :: p') mk rest (by simp) hbp hmk
    simp only [List.cons_append] at ih
    rw [ih]

theorem sub2_tail_example : sub2 ['b', '\n'] = ['b', '\n'] := by
  simp only [sub2]
  rw [if_pos (by decide)]
  split
  next p2 rem hsome => simp [listStart] at hsome
  next hnone => simp [sub2]

theorem takeWhile_nil_of_none {p : Char → Bool} :
    ∀ xs : List Char, (∀ ch ∈ xs, p ch = false) → xs.takeWhile p = []
  | [], _ => rfl
  | x :: xs, h => by
    rw [List.takeWhile_cons, if_neg (by simp [h x (List.mem_cons_self x xs)])]

theorem sub3a_id : ∀ l : List Char, (∀ ch ∈ l, ch.isDigit = false) → sub3a l = l
  | [], _ => by simp [sub3a]
  | c :: rest, h => by
    have hr : ∀ ch ∈ rest, ch.isDigit = false :=
      fun ch hm => h ch (List.mem_cons_of_mem c hm)
    simp only [sub3a]
    split
    next m after heq =>
      have hsub := bulletLine_sound heq
      have hafter : ∀ ch ∈ after, ch.isDigit = false := by
        intro ch hm
        apply h
        rw [← hsub.1]
        exact List.mem_append.mpr (Or.inr hm)
      have hol : olLookahead after = false := by
        unfold olLookahead
        have htw : (after.dropWhile isIndentChar).takeWhile Char.isDigit = [] := by
          apply takeWhile_nil_of_none
          intro ch hm
          exact hafter ch ((List.dropWhile_sublist isIndentChar).subset hm)
        simp [htw]
      rw [hol]
      simp only [Bool.false_eq_true, if_false]
      rw [sub3a_id rest hr]
    next heq => rw [sub3a_id rest hr]

theorem sub3b_id : ∀ l : List Char, (∀ ch ∈ l, ch.isDigit = false) → sub3b l = l
  | [], _ => by simp [sub3b]
  | c :: rest, h => by
    have hr : ∀ ch ∈ rest, ch.isDigit = false :=
      fun ch hm => h ch (List.mem_cons_of_mem c hm)
    simp only [sub3b]
    split
    next m after heq =>
      exfalso
      have htw : (((c :: rest) : List Char).dropWhile isIndentChar).takeWhile
          Char.isDigit = [] := by
        apply takeWhile_nil_of_none
        intro ch hm
        exact h ch ((List.dropWhile_sublist isIndentChar).subset hm)
      unfold olLine at heq
      rw [htw] at heq
      simp at heq
    next heq => rw [sub3b_id rest hr]

/-- C9: rule 2 of the preprocessor inserts a blank line before a list-item
line whenever the preceding line is nonempty — including when that line is
itself a list item — so `preprocess("- a\n- b\n")` yields
`"- a\n\n- b\n"` and a multi-line list is split into blank-line-delimited
items before parsing. -/
theorem C9_blank_line_also_between_items :
    (∀ (p : List Char) (mk : Char) (rest : List Char),
      p ≠ [] → '\n' ∉ p → isBulletChar mk = true →
      sub2 (p ++ '\n' :: mk :: ' ' :: rest) =
        p ++ '\n' :: '\n' :: mk :: ' ' :: sub2 rest) ∧
    preprocess_markdown_text "- a\n- b\n" = "- a\n\n- b\n" := by
  refine ⟨sub2_blank_line, ?_⟩
  unfold preprocess_markdown_text
  rw [sub1_id ("- a\n- b\n".toList) (by decide)]
  have h2 : sub2 ("- a\n- b\n".toList) = "- a\n\n- b\n".toList := by
    have hform : "- a\n- b\n".toList =
        ['-', ' ', 'a'] ++ '\n' :: '-' :: ' ' :: ['b', '\n'] := by decide
    rw [hform, sub2_blank_line ['-', ' ', 'a'] '-' ['b', '\n']
      (by decide) (by decide) (by decide), sub2_tail_example]
    decide
  rw [h2]
  rw [sub3a_id ("- a\n\n- b\n".toList) (by decide)]
  rw [sub3b_id ("- a\n\n- b\n".toList) (by decide)]
  rfl

/-- Witness for C9 at a one-character preceding line. -/
theorem C9_blank_line_witness :
    sub2 (['x'] ++ '\n' :: '-' :: ' ' :: []) =
      ['x'] ++ '\n' :: '\n' :: '-' :: ' ' :: sub2 [] :=
  (C9_blank_line_also_between_items).1 ['x'] '-' [] (by decide) (by decide) (by decide)
